import Mathlib

/-!
Shallow embedding of the Municipality Resolution & Count Cache core of
`src/main.py` (Telegram chatbot "Plan Estatal de Desarrollo 2025").

Strings are modelled as `List Char`.  Python's `str.lower()` is modelled
character-wise on the ASCII range (uppercase `A`-`Z` maps to `a`-`z`, every
other code point is left unchanged); Python's `str.strip()` is modelled as
removal of leading and trailing whitespace characters.  Python dicts are
modelled as insertion-ordered association lists (`List (Str × β)`): a key keeps
its first insertion position and updates overwrite its value, matching Python
dict semantics, and iteration order is list order.
-/

namespace PED

/-- Strings of the embedded program. -/
abbrev Str := List Char

/-- ASCII case folding of a single character: model of Python `str.lower`
restricted to one code point (uppercase `A`-`Z` → `a`-`z`, all other code
points unchanged; the accented letters appearing in the municipality data are
already lowercase). -/
def lowerChar (c : Char) : Char :=
  if _h : 65 ≤ c.toNat ∧ c.toNat ≤ 90 then
    Char.ofNatAux (c.toNat + 32) (Or.inl (by omega))
  else c

/-- Model of Python `str.lower()`. -/
def lowerStr (s : Str) : Str := s.map lowerChar

/-- Model of Python `str.strip()`: drop leading and trailing whitespace. -/
def pyStrip (s : Str) : Str :=
  ((s.dropWhile Char.isWhitespace).reverse.dropWhile Char.isWhitespace).reverse

/-- `normalize` from `src/main.py` line 76-77:
`return (s or "").strip().lower()`. -/
def normalize (s : Str) : Str := lowerStr (pyStrip s)

/-- `leadsIn n h` holds when `n` is an initial segment of `h`
(model of Python `str.startswith`, used to define substring search). -/
def leadsIn : Str → Str → Bool
  | [], _ => true
  | _ :: _, [] => false
  | c :: n, d :: h => (c = d) && leadsIn n h

/-- `containsSeq n h` holds when `n` occurs contiguously inside `h`:
model of Python's `n in h` on strings. -/
def containsSeq (n : Str) : Str → Bool
  | [] => leadsIn n []
  | c :: t => leadsIn n (c :: t) || containsSeq n t

/-! ### Character-level lemmas -/

theorem char_toNat_inj {a b : Char} (h : a.toNat = b.toNat) : a = b := by
  cases a; cases b
  simp only [Char.toNat] at h
  congr 1
  exact UInt32.ext h

theorem toNat_ofNatAux (n : Nat) (h : n.isValidChar) :
    (Char.ofNatAux n h).toNat = n := by
  simp [Char.ofNatAux, Char.toNat, UInt32.toNat]

theorem toNat_lowerChar (c : Char) :
    (lowerChar c).toNat =
      if 65 ≤ c.toNat ∧ c.toNat ≤ 90 then c.toNat + 32 else c.toNat := by
  unfold lowerChar
  split
  · rw [toNat_ofNatAux]
  · rfl

theorem lowerChar_idem (c : Char) : lowerChar (lowerChar c) = lowerChar c := by
  apply char_toNat_inj
  simp only [toNat_lowerChar]
  split_ifs <;> omega

theorem isWhitespace_toNat (c : Char) :
    c.isWhitespace = true ↔
      (c.toNat = 32 ∨ c.toNat = 9 ∨ c.toNat = 13 ∨ c.toNat = 10) := by
  simp only [Char.isWhitespace, Bool.or_eq_true, decide_eq_true_eq]
  constructor
  · rintro (((h | h) | h) | h) <;> subst h <;> simp [Char.toNat]
  · rintro (h | h | h | h)
    · exact Or.inl (Or.inl (Or.inl (char_toNat_inj h)))
    · exact Or.inl (Or.inl (Or.inr (char_toNat_inj h)))
    · exact Or.inl (Or.inr (char_toNat_inj h))
    · exact Or.inr (char_toNat_inj h)

theorem isWhitespace_lowerChar (c : Char) :
    (lowerChar c).isWhitespace = c.isWhitespace := by
  rw [Bool.eq_iff_iff, isWhitespace_toNat, isWhitespace_toNat, toNat_lowerChar]
  split_ifs with h <;> omega

theorem lowerStr_idem (s : Str) : lowerStr (lowerStr s) = lowerStr s := by
  unfold lowerStr
  rw [List.map_map]
  apply List.map_congr_left
  intro c _
  exact lowerChar_idem c

/-! ### Lemmas about `pyStrip` and `normalize` -/

theorem dropWhile_append_all {p : Char → Bool} {l s : Str}
    (h : ∀ c ∈ l, p c = true) :
    List.dropWhile p (l ++ s) = List.dropWhile p s := by
  induction l with
  | nil => rfl
  | cons c t ih =>
      rw [List.cons_append, List.dropWhile_cons_of_pos (h c (by simp))]
      exact ih fun d hd => h d (by simp [hd])

theorem pyStrip_pad (s l r : Str)
    (hl : ∀ c ∈ l, c.isWhitespace = true) (hr : ∀ c ∈ r, c.isWhitespace = true) :
    pyStrip (l ++ s ++ r) = pyStrip s := by
  unfold pyStrip
  rw [List.append_assoc, dropWhile_append_all hl, List.dropWhile_append]
  by_cases hs : (List.dropWhile Char.isWhitespace s).isEmpty = true
  · rw [if_pos hs]
    rw [List.isEmpty_iff] at hs
    rw [hs, List.reverse_nil, List.dropWhile_nil, List.reverse_nil,
      List.dropWhile_eq_nil_iff.mpr hr, List.reverse_nil, List.dropWhile_nil,
      List.reverse_nil]
  · rw [if_neg hs, List.reverse_append,
      dropWhile_append_all (by simp only [List.mem_reverse]; exact hr)]

theorem pyStrip_lowerStr (s : Str) : pyStrip (lowerStr s) = lowerStr (pyStrip s) := by
  have hdw : ∀ t : Str, List.dropWhile Char.isWhitespace (t.map lowerChar) =
      (List.dropWhile Char.isWhitespace t).map lowerChar := by
    intro t
    have hp : (Char.isWhitespace ∘ lowerChar) = Char.isWhitespace := by
      funext c; exact isWhitespace_lowerChar c
    rw [List.dropWhile_map, hp]
  unfold pyStrip lowerStr
  rw [hdw, ← List.map_reverse, hdw, ← List.map_reverse]

theorem normalize_lowerStr (s : Str) : normalize (lowerStr s) = normalize s := by
  unfold normalize
  rw [pyStrip_lowerStr, lowerStr_idem]

theorem normalize_pad (s l r : Str)
    (hl : ∀ c ∈ l, c.isWhitespace = true) (hr : ∀ c ∈ r, c.isWhitespace = true) :
    normalize (l ++ s ++ r) = normalize s := by
  unfold normalize
  rw [pyStrip_pad s l r hl hr]

/-! ### Levenshtein distance: textbook specification and the DP of the source -/

/-- Classic unit-cost Levenshtein distance (insertion, deletion, substitution,
cost 1 each), by the textbook recursion. -/
def levSpec : Str → Str → Nat
  | [], b => b.length
  | a :: as, [] => (a :: as).length
  | ca :: as, cb :: bs =>
      min (levSpec as (cb :: bs) + 1)
        (min (levSpec (ca :: as) bs + 1)
          (levSpec as bs + (if ca = cb then 0 else 1)))
termination_by a b => a.length + b.length

theorem levSpec_nil_left (b : Str) : levSpec [] b = b.length := by
  cases b <;> simp [levSpec]

theorem levSpec_nil_right (a : Str) : levSpec a [] = a.length := by
  cases a <;> simp [levSpec]

theorem levSpec_cons_cons (ca cb : Char) (as bs : Str) :
    levSpec (ca :: as) (cb :: bs) =
      min (levSpec as (cb :: bs) + 1)
        (min (levSpec (ca :: as) bs + 1)
          (levSpec as bs + (if ca = cb then 0 else 1))) := by
  rw [levSpec]

/-- Inner loop of `_levenshtein` (src/main.py lines 149-153): builds the tail
of the current DP row.  `diag` is `prev[j-1]`, `prevRest` the remaining tail of
the previous row, `left` is `curr[j-1]` (the cell appended last). -/
def levRow (ca : Char) : Str → Nat → List Nat → Nat → List Nat
  | [], _, _, _ => []
  | _ :: _, _, [], _ => []
  | cb :: bs, diag, pj :: prest, left =>
      let ins := pj + 1
      let dele := left + 1
      let sb := diag + (if ca = cb then 0 else 1)
      let c := min ins (min dele sb)
      c :: levRow ca bs pj prest c

/-- Outer loop of `_levenshtein` (src/main.py lines 147-154).  `i` is the
1-based index of the current character of `a`; `prev` the previous DP row. -/
def levLoop : Str → Str → List Nat → Nat → List Nat
  | [], _, prev, _ => prev
  | _ :: _, _, [], _ => []
  | ca :: as, bs, p0 :: prest, i =>
      levLoop as bs (i :: levRow ca bs p0 prest i) (i + 1)

/-- `_levenshtein` from src/main.py lines 141-155: lowercases both arguments,
short-circuits on equality and empty strings, then runs the one-row DP and
returns the last cell (`prev[-1]`). -/
def _levenshtein (a b : Str) : Nat :=
  let a' := lowerStr a
  let b' := lowerStr b
  if a' = b' then 0
  else if a' = [] then b'.length
  else if b' = [] then a'.length
  else ((levLoop a' b' (List.range (b'.length + 1)) 1).getLast?).getD 0

set_option maxHeartbeats 1000000 in
/-- The append-at-the-end recurrence of Levenshtein distance. -/
theorem levSpec_snoc_snoc (as : Str) (x y : Char) :
    ∀ bs : Str,
      levSpec (as ++ [x]) (bs ++ [y]) =
        min (levSpec as (bs ++ [y]) + 1)
          (min (levSpec (as ++ [x]) bs + 1)
            (levSpec as bs + (if x = y then 0 else 1))) := by
  induction as with
  | nil =>
      intro bs
      induction bs with
      | nil =>
          simp only [List.nil_append]
          rw [levSpec_cons_cons, levSpec_nil_left, levSpec_nil_left,
            levSpec_nil_right]
      | cons cb bs' ihb =>
          simp only [List.nil_append, List.cons_append] at ihb ⊢
          rw [levSpec_cons_cons, ihb, levSpec_cons_cons x cb [] bs' ]
          rw [levSpec_nil_left, levSpec_nil_left, levSpec_nil_left,
            levSpec_nil_left]
          simp only [List.length_append, List.length_cons, List.length_nil]
          split_ifs <;> (apply le_antisymm <;> simp only [le_min_iff, min_le_iff] <;> omega)
  | cons ca as' iha =>
      intro bs
      induction bs with
      | nil =>
          have h1 := iha []
          simp only [List.nil_append, List.cons_append] at h1 ⊢
          rw [levSpec_cons_cons, h1, levSpec_cons_cons ca y as' ]
          rw [levSpec_nil_right, levSpec_nil_right, levSpec_nil_right,
            levSpec_nil_right]
          simp only [List.length_append, List.length_cons, List.length_nil]
          split_ifs <;> (apply le_antisymm <;> simp only [le_min_iff, min_le_iff] <;> omega)
      | cons cb bs' ihb =>
          have h1 := iha (cb :: bs')
          have h3 := iha bs'
          simp only [List.cons_append] at h1 h3 ihb ⊢
          rw [levSpec_cons_cons, h1, ihb, h3,
            levSpec_cons_cons ca cb as' (bs' ++ [y]),
            levSpec_cons_cons ca cb (as' ++ [x]) bs',
            levSpec_cons_cons ca cb as' bs' ]
          split_ifs <;> (apply le_antisymm <;> simp only [le_min_iff, min_le_iff] <;> omega)

/-- Levenshtein distance is invariant under reversing both strings. -/
theorem levSpec_reverse (as : Str) : ∀ bs : Str,
    levSpec as.reverse bs.reverse = levSpec as bs := by
  induction as with
  | nil =>
      intro bs
      simp only [List.reverse_nil, levSpec_nil_left, List.length_reverse]
  | cons ca as' iha =>
      intro bs
      induction bs with
      | nil =>
          simp only [List.reverse_nil, levSpec_nil_right, List.length_reverse]
      | cons cb bs' ihb =>
          rw [List.reverse_cons, List.reverse_cons, levSpec_snoc_snoc,
            ← List.reverse_cons cb bs' ]
          rw [iha (cb :: bs')]
          rw [← List.reverse_cons ca as' ]
          rw [ihb, iha bs', levSpec_cons_cons]

/-- Levenshtein distance is symmetric. -/
theorem levSpec_comm (as : Str) : ∀ bs : Str, levSpec as bs = levSpec bs as := by
  induction as with
  | nil => intro bs; rw [levSpec_nil_left, levSpec_nil_right]
  | cons ca as' iha =>
      intro bs
      induction bs with
      | nil => rw [levSpec_nil_left, levSpec_nil_right]
      | cons cb bs' ihb =>
          rw [levSpec_cons_cons, levSpec_cons_cons cb ca,
            iha (cb :: bs'), iha bs', ihb]
          have hcost : (if ca = cb then (0 : Nat) else 1)
              = (if cb = ca then (0 : Nat) else 1) := by
            simp [eq_comm]
          rw [hcost]
          omega

/-- The distance of a string to itself is zero. -/
theorem levSpec_self (a : Str) : levSpec a a = 0 := by
  induction a with
  | nil => rw [levSpec_nil_left]; rfl
  | cons c as ih =>
      rw [levSpec_cons_cons, ih, if_pos rfl]
      omega

/-- Invariant of the inner DP loop: if the previous row holds the distances of
the (reversed) prefix `x` against the successive (reversed) prefixes of the
remaining text `bs` beyond the already consumed (reversed) prefix `ys`, the
loop produces the corresponding row for `ca :: x`. -/
theorem levRow_spec (ca : Char) : ∀ (bs x ys : Str) (left : Nat),
    left = levSpec (ca :: x) ys →
    levRow ca bs (levSpec x ys)
        ((List.range bs.length).map
          (fun k => levSpec x ((bs.take (k + 1)).reverse ++ ys))) left
      = (List.range bs.length).map
          (fun k => levSpec (ca :: x) ((bs.take (k + 1)).reverse ++ ys)) := by
  intro bs
  induction bs with
  | nil => intro x ys left _; rfl
  | cons cb bs' ih =>
      intro x ys left hleft
      simp only [List.length_cons, List.range_succ_eq_map, List.map_cons,
        List.map_map, List.take_succ_cons, List.take_zero, List.reverse_cons,
        List.reverse_nil, List.nil_append, List.singleton_append,
        List.append_assoc, Function.comp_def, Nat.succ_eq_add_one]
      rw [levRow]
      have hc : min (levSpec x (cb :: ys) + 1)
          (min (left + 1) (levSpec x ys + (if ca = cb then 0 else 1)))
            = levSpec (ca :: x) (cb :: ys) := by
        rw [hleft, levSpec_cons_cons]
      rw [hc]
      have := ih x (cb :: ys) (levSpec (ca :: x) (cb :: ys)) rfl
      simp only [List.cons_append, List.append_assoc, List.singleton_append] at this
      rw [this]

/-- Invariant of the outer DP loop: starting from the row of distances of the
(reversed) prefix `x` against all prefixes of `b`, processing the remaining
characters `as` yields the row for `as.reverse ++ x`. -/
theorem levLoop_spec : ∀ (as bs x : Str),
    levLoop as bs
        ((List.range (bs.length + 1)).map
          (fun j => levSpec x ((bs.take j).reverse)))
        (x.length + 1)
      = (List.range (bs.length + 1)).map
          (fun j => levSpec (as.reverse ++ x) ((bs.take j).reverse)) := by
  intro as
  induction as with
  | nil => intro bs x; rw [levLoop]; simp
  | cons ca as' ih =>
      intro bs x
      have hrow := levRow_spec ca bs x [] (x.length + 1)
        (by rw [levSpec_nil_right]; rfl)
      simp only [List.append_nil, levSpec_nil_right] at hrow
      have h := ih bs (ca :: x)
      simp only [List.range_succ_eq_map, List.map_cons, List.map_map,
        List.take_zero, List.reverse_nil, levSpec_nil_right, List.length_cons,
        Function.comp_def, Nat.succ_eq_add_one, List.reverse_cons,
        List.append_assoc, List.singleton_append] at h ⊢
      rw [levLoop, hrow]
      exact h

/-- The full DP of `_levenshtein` computes the Levenshtein distance of the
reversed inputs (the rows are indexed by prefixes, and `levSpec` consumes from
the front). -/
theorem levLoop_getLast (a b : Str) :
    ((levLoop a b (List.range (b.length + 1)) 1).getLast?).getD 0
      = levSpec a.reverse b.reverse := by
  have hinit : List.range (b.length + 1)
      = (List.range (b.length + 1)).map
          (fun j => levSpec [] ((b.take j).reverse)) := by
    conv_lhs => rw [← List.map_id (List.range (b.length + 1))]
    apply List.map_congr_left
    intro j hj
    rw [List.mem_range] at hj
    rw [levSpec_nil_left, List.length_reverse, List.length_take]
    simp only [id]
    omega
  rw [hinit]
  have h := levLoop_spec a b []
  simp only [List.length_nil, Nat.zero_add, List.append_nil] at h
  rw [h, List.range_succ, List.map_append, List.map_cons, List.map_nil,
    List.getLast?_concat, Option.getD_some, List.take_length]

/-- `_levenshtein a b` is the classic Levenshtein distance of the lowercased
inputs. -/
theorem levenshtein_eq_levSpec (a b : Str) :
    _levenshtein a b = levSpec (lowerStr a) (lowerStr b) := by
  unfold _levenshtein
  simp only []
  split
  · rename_i heq
    rw [heq, levSpec_self]
  · split
    · rename_i heq
      rw [heq, levSpec_nil_left]
    · split
      · rename_i heq
        rw [heq, levSpec_nil_right]
      · rw [levLoop_getLast, levSpec_reverse]

/-! ### Fuzzy matcher (`closest_match`, src/main.py lines 157-168) -/

/-- One iteration of the `for opt in opciones` loop of `closest_match`:
update `(best, best_d)` when a strictly smaller distance is found. -/
def cmStep (q : Str) (bd : Option Str × Nat) (opt : Str) : Option Str × Nat :=
  let d := _levenshtein q opt
  if d < bd.2 then (some opt, d) else bd

/-- `closest_match` from src/main.py lines 157-168: strips the query, bails out
on an empty query or empty option list, folds the loop starting from
`(None, 999)`, and returns the best candidate iff `best_d <= max_dist`. -/
def closest_match (query : Str) (opciones : List Str) (max_dist : Nat := 2) :
    Option Str :=
  let query' := pyStrip query
  if query'.isEmpty || opciones.isEmpty then none
  else
    let r := opciones.foldl (cmStep query') (none, 999)
    if r.2 ≤ max_dist then r.1 else none

/-! ### Count lookup (`get_municipio_count`, src/main.py lines 129-138) -/

/-- The pure lookup of `get_municipio_count` (src/main.py lines 129-138) on a
given snapshot `counts`: first pass returns the value of the first key whose
normalized form equals the normalized name; second pass returns the value of
the first key whose normalized form contains the (non-empty) normalized name
as a substring; otherwise 0. -/
def get_municipio_count (counts : List (Str × Nat)) (nombre : Str) : Nat :=
  let tgt := normalize nombre
  match counts.find? (fun kv => decide (normalize kv.1 = tgt)) with
  | some kv => kv.2
  | none =>
      match counts.find? (fun kv => !tgt.isEmpty && containsSeq tgt (normalize kv.1)) with
      | some kv => kv.2
      | none => 0

/-- Candidate selection of the webhook handler (src/main.py lines 430-433):
the first listed name whose normalized form equals, or contains as a
substring, the normalized input. -/
def choose_candidate (nombre : Str) (nombres : List Str) : Option Str :=
  nombres.find? (fun k =>
    decide (normalize k = normalize nombre)
      || containsSeq (normalize nombre) (normalize k))

/-! ### CSV parsing and cache (src/main.py lines 72-127) -/

/-- The decoded CSV: header names and rows keyed by header (the view
`csv.DictReader` presents after decoding). -/
structure CsvData where
  fieldnames : List Str
  rows : List (List (Str × Str))

/-- Insertion-ordered dict update: an existing key keeps its position and gets
the new value, a new key is appended (Python dict assignment). -/
def dictInsert {β : Type} (k : Str) (v : β) : List (Str × β) → List (Str × β)
  | [] => [(k, v)]
  | (k', v') :: rest =>
      if k' = k then (k', v) :: rest else (k', v') :: dictInsert k v rest

/-- Python `dict.get`. -/
def dictGet? {β : Type} (k : Str) : List (Str × β) → Option β
  | [] => none
  | (k', v) :: rest => if k' = k then some v else dictGet? k rest

/-- `headers_map` (src/main.py line 98): lowered-and-stripped header →
raw header, built in header order with Python dict semantics. -/
def headersMap (fieldnames : List Str) : List (Str × Str) :=
  fieldnames.foldl (fun m h => dictInsert (pyStrip (lowerStr h)) h m) []

/-- Python truthiness of an optional string: `None` and `""` are falsy. -/
def pyFalsy : Option Str → Bool
  | none => true
  | some s => s.isEmpty

/-- Column resolution of `fetch_counts_from_sheets` (src/main.py lines
98-107): exact lookup of the lowered configured name in `headers_map`, then a
substring fallback over the map items, with Python truthiness deciding both
the fallback trigger and the final not-found check. -/
def findField (cfgField : Str) (fieldnames : List Str) : Option Str :=
  let hm := headersMap fieldnames
  let fa0 := dictGet? (lowerStr cfgField) hm
  let fa :=
    if pyFalsy fa0 then
      match hm.find? (fun kv => containsSeq (lowerStr cfgField) kv.1) with
      | some kv => some kv.2
      | none => fa0
    else fa0
  if pyFalsy fa then none else fa

/-- The sentinel bucket for blank unit values (src/main.py line 113). -/
def sinMunicipio : Str := "(Sin municipio)".data

/-- The key a data row contributes to (src/main.py lines 111-113): the raw
trimmed value of the unit column, or the sentinel when blank or missing. -/
def rowKey (field_actual : Str) (row : List (Str × Str)) : Str :=
  let mun := pyStrip ((dictGet? field_actual row).getD [])
  if mun.isEmpty then sinMunicipio else mun

/-- The counting loop of `fetch_counts_from_sheets` (src/main.py lines
109-115). -/
def countRows (field_actual : Str) (rows : List (List (Str × Str))) :
    List (Str × Nat) :=
  rows.foldl (fun counts row =>
    let mun := rowKey field_actual row
    dictInsert mun ((dictGet? mun counts).getD 0 + 1) counts) []

/-- Outcome of the HTTP GET in `fetch_counts_from_sheets`: an exception, or a
status code together with the decoded body (decoding itself never fails, the
source decodes with `errors="replace"`). -/
inductive FetchOutcome where
  | exc : FetchOutcome
  | ok (status : Nat) (body : CsvData) : FetchOutcome

/-- `fetch_counts_from_sheets` (src/main.py lines 79-115) as a function of the
network outcome: empty map when the URL is unconfigured, on exception, on a
non-200 status, or when no header matches the configured unit column;
otherwise the per-label occurrence counts. -/
def fetch_counts_from_sheets (urlConfigured : Bool) (cfgField : Str)
    (outcome : FetchOutcome) : List (Str × Nat) :=
  if !urlConfigured then []
  else
    match outcome with
    | .exc => []
    | .ok status body =>
        if status ≠ 200 then []
        else
          match findField cfgField body.fieldnames with
          | none => []
          | some fa => countRows fa body.rows

/-- The module-level cache (src/main.py lines 73-74): `_cache_counts` and
`_cache_last_fetch`.  Timestamps are modelled as integers: only their linear
order is ever used by the source. -/
structure CacheState where
  counts : List (Str × Nat)
  lastFetch : ℤ

/-- Result of one `get_counts_cached` call: the updated globals, the returned
snapshot, and whether a fetch was attempted. -/
structure CacheResult where
  state : CacheState
  ret : List (Str × Nat)
  fetched : Bool

/-- `get_counts_cached` (src/main.py lines 117-127).  `fetchResult` is what
`fetch_counts_from_sheets` returns when (and only when) the fetch is
attempted; the refresh condition and the retain-on-empty behaviour follow the
source line by line. -/
def get_counts_cached (st : CacheState) (ttl : ℤ) (now : ℤ) (force : Bool)
    (fetchResult : List (Str × Nat)) : CacheResult :=
  if force || decide (now - st.lastFetch > ttl) || st.counts.isEmpty then
    if fetchResult.isEmpty then ⟨st, st.counts, true⟩
    else ⟨⟨fetchResult, now⟩, fetchResult, true⟩
  else ⟨st, st.counts, false⟩

/-! ### Helper lemmas: `find?` and association lists -/

theorem find?_append_first {α : Type} {p : α → Bool} (pre suf : List α) (x : α)
    (hpre : ∀ y ∈ pre, p y = false) (hx : p x = true) :
    (pre ++ x :: suf).find? p = some x := by
  induction pre with
  | nil => rw [List.nil_append, List.find?_cons_of_pos _ hx]
  | cons y t ih =>
      rw [List.cons_append, List.find?_cons_of_neg]
      · exact ih fun z hz => hpre z (by simp [hz])
      · simp [hpre y (by simp)]

theorem dictGet?_dictInsert {β : Type} (k k' : Str) (v : β) (m : List (Str × β)) :
    dictGet? k (dictInsert k' v m)
      = if k' = k then some v else dictGet? k m := by
  induction m with
  | nil =>
      simp only [dictInsert, dictGet?]
  | cons kv rest ih =>
      obtain ⟨k0, v0⟩ := kv
      simp only [dictInsert]
      by_cases h0 : k0 = k'
      · subst h0
        simp only [if_pos rfl, dictGet?]
        by_cases hk : k0 = k <;> simp [hk]
      · rw [if_neg h0]
        simp only [dictGet?]
        by_cases hk : k0 = k
        · subst hk
          rw [if_pos rfl, if_pos rfl, if_neg (fun h => h0 h.symm)]
        · rw [if_neg hk, if_neg hk, ih]

theorem mem_dictInsert {β : Type} (kv : Str × β) (k : Str) (v : β)
    (m : List (Str × β)) (h : kv ∈ dictInsert k v m) :
    kv = (k, v) ∨ kv ∈ m := by
  induction m with
  | nil => simpa [dictInsert] using h
  | cons kv0 rest ih =>
      obtain ⟨k0, v0⟩ := kv0
      simp only [dictInsert] at h
      by_cases h0 : k0 = k
      · rw [if_pos h0] at h
        rcases List.mem_cons.mp h with h | h
        · left; rw [h, h0]
        · right; exact List.mem_cons_of_mem _ h
      · rw [if_neg h0] at h
        rcases List.mem_cons.mp h with h | h
        · right; rw [h]; exact List.mem_cons_self _ _
        · rcases ih h with h | h
          · left; exact h
          · right; exact List.mem_cons_of_mem _ h

theorem dictGet?_isSome_dictInsert {β : Type} (k k' : Str) (v : β)
    (m : List (Str × β)) (h : (dictGet? k m).isSome = true) :
    (dictGet? k (dictInsert k' v m)).isSome = true := by
  rw [dictGet?_dictInsert]
  by_cases hk : k' = k <;> simp [hk, h]

theorem mem_of_dictGet? {β : Type} (k : Str) (v : β) :
    ∀ m : List (Str × β), dictGet? k m = some v → (k, v) ∈ m := by
  intro m
  induction m with
  | nil => intro h; simp [dictGet?] at h
  | cons kv rest ih =>
      obtain ⟨k0, v0⟩ := kv
      intro h
      simp only [dictGet?] at h
      by_cases hk : k0 = k
      · rw [if_pos hk] at h
        subst hk
        obtain rfl : v0 = v := by simpa using h
        exact List.mem_cons_self _ _
      · rw [if_neg hk] at h
        exact List.mem_cons_of_mem _ (ih h)

/-- Looking a key up in `headers_map` returns the last header that produced
that key (Python dict updates overwrite). -/
theorem dictGet?_headersMap : ∀ (fns : List Str) (acc : List (Str × Str)) (k : Str),
    dictGet? k (fns.foldl (fun m h => dictInsert (pyStrip (lowerStr h)) h m) acc)
      = fns.foldl (fun r h => if pyStrip (lowerStr h) = k then some h else r)
          (dictGet? k acc) := by
  intro fns
  induction fns with
  | nil => intro acc k; rfl
  | cons h t ih =>
      intro acc k
      simp only [List.foldl_cons]
      rw [ih, dictGet?_dictInsert]

theorem foldl_lastMatch_eq {α : Type} (keyOf : α → Str) (k : Str) :
    ∀ (l : List α) (r0 : Option α), (∀ x ∈ l, keyOf x ≠ k) →
      l.foldl (fun r x => if keyOf x = k then some x else r) r0 = r0 := by
  intro l
  induction l with
  | nil => intro r0 _; rfl
  | cons x t ih =>
      intro r0 h
      simp only [List.foldl_cons, if_neg (h x (by simp))]
      exact ih r0 fun z hz => h z (by simp [hz])

theorem foldl_lastMatch {α : Type} (keyOf : α → Str) (k : Str) :
    ∀ (l : List α) (r0 : Option α), (∃ x ∈ l, keyOf x = k) →
      ∃ v, v ∈ l ∧ keyOf v = k ∧
        l.foldl (fun r x => if keyOf x = k then some x else r) r0 = some v := by
  intro l
  induction l with
  | nil => rintro r0 ⟨x, hx, _⟩; simp at hx
  | cons x t ih =>
      rintro r0 hex
      by_cases hmt : ∃ z ∈ t, keyOf z = k
      · obtain ⟨v, hv, hkv, heq⟩ := ih _ hmt
        exact ⟨v, List.mem_cons_of_mem _ hv, hkv, by
          simp only [List.foldl_cons]; exact heq⟩
      · push_neg at hmt
        obtain ⟨y, hy, hky⟩ := hex
        rcases List.mem_cons.mp hy with rfl | hyt
        · refine ⟨y, List.mem_cons_self _ _, hky, ?_⟩
          simp only [List.foldl_cons, if_pos hky]
          exact foldl_lastMatch_eq keyOf k t _ hmt
        · exact absurd hky (hmt y hyt)

/-- Every entry of `headers_map` pairs a header of the CSV with its
lowered-and-stripped form. -/
theorem mem_headersMap : ∀ (fns : List Str) (acc : List (Str × Str))
    (kv : Str × Str),
    kv ∈ fns.foldl (fun m h => dictInsert (pyStrip (lowerStr h)) h m) acc →
    kv ∈ acc ∨ (kv.2 ∈ fns ∧ kv.1 = pyStrip (lowerStr kv.2)) := by
  intro fns
  induction fns with
  | nil => intro acc kv h; exact Or.inl h
  | cons h t ih =>
      intro acc kv hmem
      simp only [List.foldl_cons] at hmem
      rcases ih _ kv hmem with hacc | ⟨h2, h1⟩
      · rcases mem_dictInsert kv _ _ _ hacc with heq | hacc'
        · right
          rw [heq]
          exact ⟨List.mem_cons_self _ _, rfl⟩
        · exact Or.inl hacc'
      · exact Or.inr ⟨List.mem_cons_of_mem _ h2, h1⟩

/-! ### Lemmas about the counting loop -/

theorem sum_dictInsert_incr (k : Str) :
    ∀ m : List (Str × Nat),
      ((dictInsert k ((dictGet? k m).getD 0 + 1) m).map Prod.snd).sum
        = ((m.map Prod.snd).sum) + 1 := by
  intro m
  induction m with
  | nil => simp [dictInsert, dictGet?]
  | cons kv rest ih =>
      obtain ⟨k0, v0⟩ := kv
      simp only [dictInsert, dictGet?]
      by_cases hk : k0 = k
      · simp only [if_pos hk, List.map_cons, List.sum_cons, Option.getD_some]
        omega
      · simp only [if_neg hk, List.map_cons, List.sum_cons, ih]
        omega

theorem countRows_sum (fa : Str) :
    ∀ (rows : List (List (Str × Str))) (acc : List (Str × Nat)),
      ((rows.foldl (fun counts row =>
          let mun := rowKey fa row
          dictInsert mun ((dictGet? mun counts).getD 0 + 1) counts) acc).map
        Prod.snd).sum
        = ((acc.map Prod.snd).sum) + rows.length := by
  intro rows
  induction rows with
  | nil => intro acc; simp
  | cons row rest ih =>
      intro acc
      simp only [List.foldl_cons, List.length_cons]
      rw [ih, sum_dictInsert_incr]
      omega

theorem countRows_get (fa : Str) (k : Str) :
    ∀ (rows : List (List (Str × Str))) (acc : List (Str × Nat)),
      (dictGet? k (rows.foldl (fun counts row =>
          let mun := rowKey fa row
          dictInsert mun ((dictGet? mun counts).getD 0 + 1) counts) acc)).getD 0
        = (dictGet? k acc).getD 0
          + (rows.filter (fun row => decide (rowKey fa row = k))).length := by
  intro rows
  induction rows with
  | nil => intro acc; simp
  | cons row rest ih =>
      intro acc
      simp only [List.foldl_cons, List.filter_cons]
      by_cases hk : rowKey fa row = k
      · rw [if_pos (by simp [hk]), ih, dictGet?_dictInsert, if_pos hk,
          List.length_cons]
        simp only [Option.getD_some]
        rw [hk]
        omega
      · rw [if_neg (by simp [hk]), ih, dictGet?_dictInsert, if_neg hk]

/-! ### Lemmas about the `closest_match` fold -/

theorem cmFold_const (q : Str) :
    ∀ (opts : List Str) (b0 : Option Str) (d0 : Nat),
      (∀ o ∈ opts, d0 ≤ _levenshtein q o) →
      opts.foldl (cmStep q) (b0, d0) = (b0, d0) := by
  intro opts
  induction opts with
  | nil => intro b0 d0 _; rfl
  | cons o t ih =>
      intro b0 d0 h
      simp only [List.foldl_cons, cmStep]
      rw [if_neg (by have := h o (by simp); omega)]
      exact ih b0 d0 fun z hz => h z (by simp [hz])

theorem cmFold_min (q : Str) :
    ∀ (opts : List Str) (b0 : Option Str) (d0 m : Nat),
      (∃ o ∈ opts, _levenshtein q o = m) →
      (∀ o ∈ opts, m ≤ _levenshtein q o) →
      m < d0 →
      opts.foldl (cmStep q) (b0, d0)
        = (opts.find? (fun o => decide (_levenshtein q o = m)), m) := by
  intro opts
  induction opts with
  | nil => rintro b0 d0 m ⟨o, ho, _⟩; simp at ho
  | cons o t ih =>
      rintro b0 d0 m hex hlb hlt
      simp only [List.foldl_cons, cmStep]
      by_cases ho : _levenshtein q o = m
      · rw [if_pos (by omega), List.find?_cons_of_pos _ (by simp [ho]), ho]
        by_cases hmt : ∃ z ∈ t, _levenshtein q z < m
        · obtain ⟨z, hz, hzlt⟩ := hmt
          exact absurd (hlb z (by simp [hz])) (by omega)
        · push_neg at hmt
          rw [cmFold_const q t (some o) m hmt]
      · rw [List.find?_cons_of_neg _ (by simp [ho])]
        have hm_t : ∃ z ∈ t, _levenshtein q z = m := by
          obtain ⟨z, hz, hzm⟩ := hex
          rcases List.mem_cons.mp hz with rfl | hzt
          · exact absurd hzm ho
          · exact ⟨z, hzt, hzm⟩
        have hlb_t : ∀ z ∈ t, m ≤ _levenshtein q z :=
          fun z hz => hlb z (by simp [hz])
        by_cases hupd : _levenshtein q o < d0
        · rw [if_pos hupd]
          refine ih _ _ m hm_t hlb_t ?_
          have := hlb o (by simp)
          omega
        · rw [if_neg hupd]
          exact ih _ _ m hm_t hlb_t hlt

theorem exists_min_lev (q : Str) :
    ∀ opts : List Str, opts ≠ [] →
      ∃ m, (∃ o ∈ opts, _levenshtein q o = m)
        ∧ (∀ o ∈ opts, m ≤ _levenshtein q o) := by
  intro opts
  induction opts with
  | nil => intro h; exact absurd rfl h
  | cons o t ih =>
      intro _
      by_cases ht : t = []
      · subst ht
        exact ⟨_levenshtein q o, ⟨o, by simp⟩, by simp⟩
      · obtain ⟨m, ⟨z, hz, hzm⟩, hlb⟩ := ih ht
        by_cases hle : _levenshtein q o ≤ m
        · refine ⟨_levenshtein q o, ⟨o, by simp⟩, ?_⟩
          intro z' hz'
          rcases List.mem_cons.mp hz' with rfl | hz't
          · exact le_refl _
          · exact le_trans hle (hlb z' hz't)
        · refine ⟨m, ⟨z, List.mem_cons_of_mem _ hz, hzm⟩, ?_⟩
          intro z' hz'
          rcases List.mem_cons.mp hz' with rfl | hz't
          · omega
          · exact hlb z' hz't

/-! ## Claim theorems -/

/-- C1 is false of the code: `normalize` does not strip combining diacritical
marks (`normalize "México" ≠ normalize "mexico"`), and it does not collapse
interior whitespace runs either. -/
theorem claim_C1_counterexample :
    normalize "México".data ≠ normalize "mexico".data
    ∧ normalize "a  b".data ≠ normalize "a b".data :=
  ⟨by decide, by decide⟩

/-- C1 (amended): `normalize` only trims surrounding whitespace and
lowercases; inputs differing only in letter case or in surrounding whitespace
yield equal comparison keys (in particular
`normalize "  MEXICO  " = normalize "mexico"`), but accents are kept and
interior whitespace is not collapsed. -/
theorem claim_C1 (s l r : Str)
    (hl : ∀ c ∈ l, c.isWhitespace = true)
    (hr : ∀ c ∈ r, c.isWhitespace = true) :
    normalize (l ++ s ++ r) = normalize s
    ∧ normalize (lowerStr s) = normalize s :=
  ⟨normalize_pad s l r hl hr, normalize_lowerStr s⟩

theorem claim_C1_witness :
    normalize "  MEXICO  ".data = normalize "MEXICO".data
    ∧ normalize "mexico".data = normalize "MEXICO".data := by
  have h := claim_C1 "MEXICO".data "  ".data "  ".data (by decide) (by decide)
  have e1 : "  ".data ++ "MEXICO".data ++ "  ".data = "  MEXICO  ".data := by
    decide
  have e2 : lowerStr "MEXICO".data = "mexico".data := by decide
  exact ⟨by rw [← e1]; exact h.1, by rw [← e2]; exact h.2⟩

/-- C2: whenever the fetch fails (exception, non-200 status, missing unit
column) or parses zero rows, `get_counts_cached` leaves the cached snapshot
and `_cache_last_fetch` unchanged and returns the previous snapshot, for
TTL-triggered and forced refreshes alike. -/
theorem claim_C2 (st : CacheState) (ttl now : ℤ) (force urlConfigured : Bool)
    (cfgField : Str) (outcome : FetchOutcome)
    (hfail : outcome = FetchOutcome.exc
      ∨ (∃ s b, outcome = FetchOutcome.ok s b ∧ s ≠ 200)
      ∨ (∃ s b, outcome = FetchOutcome.ok s b
          ∧ findField cfgField b.fieldnames = none)
      ∨ (∃ s b, outcome = FetchOutcome.ok s b ∧ b.rows = [])) :
    (get_counts_cached st ttl now force
        (fetch_counts_from_sheets urlConfigured cfgField outcome)).state = st
    ∧ (get_counts_cached st ttl now force
        (fetch_counts_from_sheets urlConfigured cfgField outcome)).ret
        = st.counts := by
  have hempty : fetch_counts_from_sheets urlConfigured cfgField outcome = [] := by
    unfold fetch_counts_from_sheets
    cases urlConfigured
    · rfl
    · simp only [Bool.not_true, Bool.false_eq_true, if_false]
      rcases hfail with h | ⟨s, b, h, hs⟩ | ⟨s, b, h, hf⟩ | ⟨s, b, h, hrows⟩ <;>
        subst h <;> dsimp only
      · rw [if_pos hs]
      · by_cases hs : s ≠ 200
        · rw [if_pos hs]
        · rw [if_neg hs, hf]
      · by_cases hs : s ≠ 200
        · rw [if_pos hs]
        · rw [if_neg hs]
          cases hff : findField cfgField b.fieldnames
          · rfl
          · dsimp only
            rw [hrows]
            rfl
  rw [hempty]
  unfold get_counts_cached
  split <;> exact ⟨rfl, rfl⟩

theorem claim_C2_witness :
    (get_counts_cached ⟨[("A".data, 5)], 0⟩ 120 200 false
        (fetch_counts_from_sheets true "Municipio".data FetchOutcome.exc)).state
      = ⟨[("A".data, 5)], 0⟩
    ∧ (get_counts_cached ⟨[("A".data, 5)], 0⟩ 120 200 false
        (fetch_counts_from_sheets true "Municipio".data FetchOutcome.exc)).ret
      = [("A".data, 5)] :=
  claim_C2 ⟨[("A".data, 5)], 0⟩ 120 200 false true "Municipio".data
    FetchOutcome.exc (Or.inl rfl)

/-- C8: `_levenshtein` computes the classic unit-cost Levenshtein distance
over its case-folded comparison keys, is symmetric, and gives distance 0 on a
pair of equal arguments. -/
theorem claim_C8 : ∀ a b : Str,
    _levenshtein a b = levSpec (lowerStr a) (lowerStr b)
    ∧ _levenshtein a b = _levenshtein b a
    ∧ _levenshtein a a = 0 := by
  intro a b
  refine ⟨levenshtein_eq_levSpec a b, ?_, ?_⟩
  · rw [levenshtein_eq_levSpec, levenshtein_eq_levSpec, levSpec_comm]
  · rw [levenshtein_eq_levSpec, levSpec_self]

/-- C10: `_levenshtein` lowercases both of its arguments before computing the
distance (`_levenshtein a b = _levenshtein (lower a) (lower b)`); two strings
differing only in letter case are at distance 0. -/
theorem claim_C10 : ∀ a b : Str,
    _levenshtein a b = _levenshtein (lowerStr a) (lowerStr b)
    ∧ (lowerStr a = lowerStr b → _levenshtein a b = 0) := by
  intro a b
  constructor
  · rw [levenshtein_eq_levSpec, levenshtein_eq_levSpec, lowerStr_idem,
      lowerStr_idem]
  · intro h
    rw [levenshtein_eq_levSpec, h, levSpec_self]

theorem claim_C10_witness :
    _levenshtein "AbC".data "aBc".data
      = _levenshtein (lowerStr "AbC".data) (lowerStr "aBc".data)
    ∧ _levenshtein "AbC".data "aBc".data = 0 :=
  ⟨(claim_C10 "AbC".data "aBc".data).1,
   (claim_C10 "AbC".data "aBc".data).2 (by decide)⟩

/-- C3 is false of the code: `get_municipio_count` does not return 0 when no
snapshot key normalizes equal to the queried unit — it falls back to a
substring match ("pachuca" hits "Pachuca de Soto"). -/
theorem claim_C3_counterexample :
    normalize "Pachuca de Soto".data ≠ normalize "pachuca".data
    ∧ get_municipio_count [("Pachuca de Soto".data, 3)] "pachuca".data = 3 :=
  ⟨by decide, by decide⟩

/-- C3 (amended): the count lookup normalizes both sides and returns the value
of the first key whose normalized form equals the normalized unit; failing
that, the value of the first key whose normalized form contains the non-empty
normalized unit as a substring; and 0 only when neither rule matches any
key. -/
theorem claim_C3 (nombre : Str) :
    (∀ (pre suf : List (Str × Nat)) (k : Str) (v : Nat),
        (∀ kv ∈ pre, normalize kv.1 ≠ normalize nombre) →
        normalize k = normalize nombre →
        get_municipio_count (pre ++ (k, v) :: suf) nombre = v)
    ∧ (∀ (pre suf : List (Str × Nat)) (k : Str) (v : Nat),
        (∀ kv ∈ pre ++ (k, v) :: suf, normalize kv.1 ≠ normalize nombre) →
        (∀ kv ∈ pre,
          containsSeq (normalize nombre) (normalize kv.1) = false) →
        normalize nombre ≠ [] →
        containsSeq (normalize nombre) (normalize k) = true →
        get_municipio_count (pre ++ (k, v) :: suf) nombre = v)
    ∧ (∀ counts : List (Str × Nat),
        (∀ kv ∈ counts, normalize kv.1 ≠ normalize nombre) →
        (∀ kv ∈ counts, normalize nombre = []
          ∨ containsSeq (normalize nombre) (normalize kv.1) = false) →
        get_municipio_count counts nombre = 0) := by
  refine ⟨?_, ?_, ?_⟩
  · intro pre suf k v hno hmatch
    unfold get_municipio_count
    dsimp only
    rw [find?_append_first pre suf (k, v)
      (fun y hy => decide_eq_false (hno y hy)) (decide_eq_true hmatch)]
  · intro pre suf k v hnoexact hnopre hne hk
    unfold get_municipio_count
    dsimp only
    have hemp : (normalize nombre).isEmpty = false := by
      rw [List.isEmpty_eq_false]; exact hne
    have h1 : List.find?
        (fun kv => decide (normalize kv.1 = normalize nombre))
        (pre ++ (k, v) :: suf) = none :=
      List.find?_eq_none.mpr fun kv hkv => by
        simp only [decide_eq_true_eq]
        exact hnoexact kv hkv
    have h2 : List.find?
        (fun kv => !(normalize nombre).isEmpty
          && containsSeq (normalize nombre) (normalize kv.1))
        (pre ++ (k, v) :: suf) = some (k, v) :=
      find?_append_first pre suf (k, v)
        (fun y hy => by simp [hnopre y hy]) (by simp [hemp, hk])
    rw [h1, h2]
  · intro counts hnoexact hnosub
    unfold get_municipio_count
    dsimp only
    have h1 : List.find?
        (fun kv => decide (normalize kv.1 = normalize nombre)) counts = none :=
      List.find?_eq_none.mpr fun kv hkv => by
        simp only [decide_eq_true_eq]
        exact hnoexact kv hkv
    have h2 : List.find?
        (fun kv => !(normalize nombre).isEmpty
          && containsSeq (normalize nombre) (normalize kv.1)) counts = none :=
      List.find?_eq_none.mpr fun kv hkv => by
        rcases hnosub kv hkv with h | h
        · simp [h]
        · simp [h]
    rw [h1, h2]

theorem claim_C3_witness :
    get_municipio_count [("Tula".data, 1), ("Pachuca de Soto".data, 3)]
        "  PACHUCA DE SOTO ".data = 3
    ∧ get_municipio_count [("Tula".data, 1), ("Pachuca de Soto".data, 3)]
        "chuca de so".data = 3
    ∧ get_municipio_count [("Tula".data, 1)] "pachuca".data = 0 :=
  ⟨(claim_C3 "  PACHUCA DE SOTO ".data).1 [("Tula".data, 1)] []
      "Pachuca de Soto".data 3 (by decide) (by decide),
   (claim_C3 "chuca de so".data).2.1 [("Tula".data, 1)] []
      "Pachuca de Soto".data 3 (by decide) (by decide) (by decide) (by decide),
   (claim_C3 "pachuca".data).2.2 [("Tula".data, 1)] (by decide) (by decide)⟩

/-- C4 is false of the code: there is no equality-only exact pass — the single
selection pass also accepts substring containment, so resolving a canonical
unit's own name can select an earlier candidate that merely contains it:
resolving "Pachuca" against ["Pachuca de Soto", "Pachuca"] yields
"Pachuca de Soto", not "Pachuca". -/
theorem claim_C4_counterexample :
    "Pachuca".data ∈ ["Pachuca de Soto".data, "Pachuca".data]
    ∧ choose_candidate "Pachuca".data
        ["Pachuca de Soto".data, "Pachuca".data]
      = some "Pachuca de Soto".data
    ∧ some "Pachuca de Soto".data ≠ some "Pachuca".data := by
  refine ⟨by decide, by decide, by decide⟩

/-- C4 (amended): candidate selection happens before any fuzzy suggestion and
always succeeds on a listed unit (so `closest_match` is never consulted for
it), but it takes the first candidate in list order whose normalized name
equals **or contains as a substring** the normalized query; a unit U is
resolved to U itself when no earlier candidate matches under either rule. -/
theorem claim_C4 (U : Str) :
    (∀ nombres : List Str, U ∈ nombres →
      (choose_candidate U nombres).isSome = true)
    ∧ (∀ pre suf : List Str,
        (∀ k ∈ pre, normalize k ≠ normalize U
          ∧ containsSeq (normalize U) (normalize k) = false) →
        choose_candidate U (pre ++ U :: suf) = some U) := by
  constructor
  · intro nombres hU
    unfold choose_candidate
    rw [List.find?_isSome]
    exact ⟨U, hU, by simp⟩
  · intro pre suf hpre
    unfold choose_candidate
    rw [find?_append_first pre suf U
      (fun k hk => by simp [decide_eq_false (hpre k hk).1, (hpre k hk).2])
      (by simp)]

theorem claim_C4_witness :
    (choose_candidate "Pachuca".data
        ["Tula de Allende".data, "Pachuca".data]).isSome = true
    ∧ choose_candidate "Pachuca".data
        ["Tula de Allende".data, "Pachuca".data] = some "Pachuca".data :=
  ⟨(claim_C4 "Pachuca".data).1 ["Tula de Allende".data, "Pachuca".data]
      (by decide),
   (claim_C4 "Pachuca".data).2 ["Tula de Allende".data] [] (by decide)⟩

/-- C5: for a query that strips to non-empty text and a non-empty candidate
list, `closest_match` returns the first candidate attaining the minimal edit
distance when that minimum is at most `max_dist`, and `none` otherwise; a
query that strips to empty always yields `none`.  (`max_dist < 999` keeps the
threshold below the source's sentinel initialisation of `best_d`; the default
threshold is 2.) -/
theorem claim_C5 (query : Str) (opciones : List Str) (max_dist : Nat)
    (hmd : max_dist < 999) :
    (pyStrip query = [] → closest_match query opciones max_dist = none)
    ∧ (pyStrip query ≠ [] → opciones ≠ [] →
        ∃ m, (∃ o ∈ opciones, _levenshtein (pyStrip query) o = m)
          ∧ (∀ o ∈ opciones, m ≤ _levenshtein (pyStrip query) o)
          ∧ closest_match query opciones max_dist
              = (if m ≤ max_dist
                  then opciones.find?
                    (fun o => decide (_levenshtein (pyStrip query) o = m))
                  else none)) := by
  constructor
  · intro hq
    unfold closest_match
    dsimp only
    rw [hq]
    rfl
  · intro hq hopts
    obtain ⟨m, hmem, hlb⟩ := exists_min_lev (pyStrip query) opciones hopts
    refine ⟨m, hmem, hlb, ?_⟩
    unfold closest_match
    dsimp only
    have hc : ((pyStrip query).isEmpty || opciones.isEmpty) = false := by
      simp only [Bool.or_eq_false_iff, List.isEmpty_eq_false]
      exact ⟨hq, hopts⟩
    rw [hc]
    simp only [Bool.false_eq_true, if_false]
    by_cases hlt : m < 999
    · rw [cmFold_min (pyStrip query) opciones none 999 m hmem hlb hlt]
    · rw [cmFold_const (pyStrip query) opciones none 999
        (fun o ho => le_trans (by omega) (hlb o ho))]
      rw [if_neg (by omega), if_neg (by omega)]

theorem claim_C5_witness :
    closest_match "  ".data ["abc".data] 2 = none
    ∧ closest_match "abd".data ["xyz".data, "abc".data] 2
        = some "abc".data := by
  constructor
  · exact (claim_C5 "  ".data ["abc".data] 2 (by decide)).1 (by decide)
  · have h := (claim_C5 "abd".data ["xyz".data, "abc".data] 2 (by decide)).2
      (by decide) (by decide)
    obtain ⟨m, ⟨o, ho, hom⟩, hlb, heq⟩ := h
    have h1 : m ≤ 1 := by
      have ha := hlb "abc".data (by decide)
      have hb : _levenshtein (pyStrip "abd".data) "abc".data = 1 := by decide
      omega
    have hm : m = 1 := by
      rcases List.mem_cons.mp ho with rfl | ho2
      · have : _levenshtein (pyStrip "abd".data) "xyz".data = 3 := by decide
        omega
      · rcases List.mem_cons.mp ho2 with rfl | ho3
        · have : _levenshtein (pyStrip "abd".data) "abc".data = 1 := by decide
          omega
        · simp at ho3
    rw [hm] at heq
    rw [heq]
    decide

/-- Helper: the fetch flag of `get_counts_cached` equals its refresh
condition. -/
theorem get_counts_cached_fetched (st : CacheState) (ttl now : ℤ)
    (force : Bool) (d : List (Str × Nat)) :
    (get_counts_cached st ttl now force d).fetched
      = (force || decide (now - st.lastFetch > ttl) || st.counts.isEmpty) := by
  unfold get_counts_cached
  split
  · rename_i h
    rw [h]
    split <;> rfl
  · rename_i h
    rw [Bool.not_eq_true] at h
    rw [h]

/-- Helper: a non-forced call on a fresh, non-empty cache is the identity. -/
theorem get_counts_cached_fresh (st : CacheState) (ttl now : ℤ)
    (d : List (Str × Nat)) (h1 : now - st.lastFetch ≤ ttl)
    (h2 : st.counts ≠ []) :
    get_counts_cached st ttl now false d = ⟨st, st.counts, false⟩ := by
  unfold get_counts_cached
  have hc : (false || decide (now - st.lastFetch > ttl) || st.counts.isEmpty)
      = false := by
    simp only [Bool.false_or, Bool.or_eq_false_iff, decide_eq_false_iff_not,
      List.isEmpty_eq_false]
    exact ⟨by omega, h2⟩
  rw [hc]
  rfl

/-- Helper: a triggered refresh with a non-empty fetch result replaces the
snapshot wholesale and stamps `now`. -/
theorem get_counts_cached_update (st : CacheState) (ttl now : ℤ)
    (force : Bool) (d : List (Str × Nat))
    (hcond : (force || decide (now - st.lastFetch > ttl) || st.counts.isEmpty)
      = true)
    (hd : d ≠ []) :
    get_counts_cached st ttl now force d = ⟨⟨d, now⟩, d, true⟩ := by
  unfold get_counts_cached
  rw [hcond]
  have hde : d.isEmpty = false := List.isEmpty_eq_false.mpr hd
  rw [if_pos rfl, hde]
  rfl

/-- C6 is false of the code at the TTL boundary: with age exactly equal to the
TTL (claimed Stale, since age ≥ TTL) and a previously fetched snapshot,
`get_counts_cached False` performs no fetch — the source refreshes only when
`now - _cache_last_fetch > TTL`, strictly. -/
theorem claim_C6_counterexample :
    (200 : ℤ) - 80 ≥ 120
    ∧ (get_counts_cached ⟨[("A".data, 5)], 80⟩ 120 200 false
        [("B".data, 7)]).fetched = false :=
  ⟨by decide, by decide⟩

/-- C6 (amended): while the cache holds a non-empty snapshot of age **at
most** the TTL, `get_counts_cached False` performs no fetch and returns the
snapshot unchanged; a fetch is attempted exactly when the call is forced, the
age strictly exceeds the TTL, or no snapshot has ever been stored; and after
a successful refresh, a second non-forced call within one TTL window performs
no further fetch, so the pair of calls triggers exactly one fetch. -/
theorem claim_C6 (st0 : CacheState) (ttl t1 t2 : ℤ)
    (d1 d2 : List (Str × Nat)) (hd1 : d1 ≠ []) (hwin : t2 - t1 ≤ ttl)
    (hstale : t1 - st0.lastFetch > ttl ∨ st0.counts = []) :
    (∀ (st : CacheState) (now : ℤ) (d : List (Str × Nat)),
        now - st.lastFetch ≤ ttl → st.counts ≠ [] →
        get_counts_cached st ttl now false d = ⟨st, st.counts, false⟩)
    ∧ (∀ (st : CacheState) (now : ℤ) (d : List (Str × Nat)) (force : Bool),
        (get_counts_cached st ttl now force d).fetched = true ↔
          (force = true ∨ now - st.lastFetch > ttl ∨ st.counts = []))
    ∧ ((get_counts_cached st0 ttl t1 false d1).fetched = true
        ∧ (get_counts_cached
            (get_counts_cached st0 ttl t1 false d1).state ttl t2 false
            d2).fetched = false
        ∧ (get_counts_cached
            (get_counts_cached st0 ttl t1 false d1).state ttl t2 false
            d2).ret = d1) := by
  refine ⟨fun st now d h1 h2 => get_counts_cached_fresh st ttl now d h1 h2,
    ?_, ?_⟩
  · intro st now d force
    rw [get_counts_cached_fetched]
    simp [List.isEmpty_iff, or_assoc]
  · have hcond : (false || decide (t1 - st0.lastFetch > ttl)
        || st0.counts.isEmpty) = true := by
      rcases hstale with h | h <;> simp [h]
    have h1 : get_counts_cached st0 ttl t1 false d1 = ⟨⟨d1, t1⟩, d1, true⟩ :=
      get_counts_cached_update st0 ttl t1 false d1 hcond hd1
    rw [h1]
    have h2 : get_counts_cached ⟨d1, t1⟩ ttl t2 false d2
        = ⟨⟨d1, t1⟩, d1, false⟩ :=
      get_counts_cached_fresh ⟨d1, t1⟩ ttl t2 d2 hwin hd1
    rw [h2]
    exact ⟨rfl, rfl, rfl⟩

theorem claim_C6_witness :
    (get_counts_cached ⟨[], 0⟩ 120 5 false [("A".data, 5)]).fetched = true
    ∧ (get_counts_cached
        (get_counts_cached ⟨[], 0⟩ 120 5 false [("A".data, 5)]).state
        120 100 false []).fetched = false
    ∧ (get_counts_cached
        (get_counts_cached ⟨[], 0⟩ 120 5 false [("A".data, 5)]).state
        120 100 false []).ret = [("A".data, 5)] :=
  (claim_C6 ⟨[], 0⟩ 120 5 100 [("A".data, 5)] [] (by decide) (by decide)
    (Or.inr rfl)).2.2

/-- Helper: looking a key up in `headers_map` scans the headers in order,
keeping the last one whose lowered-and-stripped form is the key. -/
theorem dictGet?_headersMap_eq (fns : List Str) (k : Str) :
    dictGet? k (headersMap fns)
      = fns.foldl
          (fun r h => if pyStrip (lowerStr h) = k then some h else r) none := by
  unfold headersMap
  rw [dictGet?_headersMap]
  rfl

/-- C7: column resolution is a case-insensitive exact match on the trimmed
header first, then a case-insensitive substring fallback; if no header matches
either rule the parse yields the empty map; and the configured name
"Municipio" resolves the header "  MUNICIPIO " via the exact rule.  (The
nonemptiness side conditions exclude the degenerate empty-string header,
which Python truthiness treats as absent.) -/
theorem claim_C7 (cfgField : Str) (fieldnames : List Str) :
    ((∃ h ∈ fieldnames, pyStrip (lowerStr h) = lowerStr cfgField) →
      (∀ h ∈ fieldnames, pyStrip (lowerStr h) = lowerStr cfgField → h ≠ []) →
      ∃ v ∈ fieldnames, findField cfgField fieldnames = some v
        ∧ pyStrip (lowerStr v) = lowerStr cfgField)
    ∧ ((∀ h ∈ fieldnames, pyStrip (lowerStr h) ≠ lowerStr cfgField) →
      (∃ h ∈ fieldnames,
        containsSeq (lowerStr cfgField) (pyStrip (lowerStr h)) = true) →
      (∀ h ∈ fieldnames,
        containsSeq (lowerStr cfgField) (pyStrip (lowerStr h)) = true →
          h ≠ []) →
      ∃ v ∈ fieldnames, findField cfgField fieldnames = some v
        ∧ containsSeq (lowerStr cfgField) (pyStrip (lowerStr v)) = true)
    ∧ ((∀ h ∈ fieldnames, pyStrip (lowerStr h) ≠ lowerStr cfgField
          ∧ containsSeq (lowerStr cfgField) (pyStrip (lowerStr h)) = false) →
      ∀ rows : List (List (Str × Str)),
        fetch_counts_from_sheets true cfgField
          (FetchOutcome.ok 200 ⟨fieldnames, rows⟩) = [])
    ∧ findField "Municipio".data ["  MUNICIPIO ".data]
        = some "  MUNICIPIO ".data := by
  refine ⟨?_, ?_, ?_, by decide⟩
  · intro hex hne
    obtain ⟨v, hv, hkv, hfold⟩ := foldl_lastMatch
      (fun h => pyStrip (lowerStr h)) (lowerStr cfgField) fieldnames none hex
    refine ⟨v, hv, ?_, hkv⟩
    unfold findField
    dsimp only
    rw [dictGet?_headersMap_eq, hfold]
    have hfalsy : pyFalsy (some v) = false := by
      simp only [pyFalsy, List.isEmpty_eq_false]
      exact hne v hv hkv
    rw [hfalsy]
    simp only [Bool.false_eq_true, if_false]
    rw [hfalsy]
    simp only [Bool.false_eq_true, if_false]
  · intro hnoex hsub hne
    have hfa0 : dictGet? (lowerStr cfgField) (headersMap fieldnames) = none := by
      rw [dictGet?_headersMap_eq]
      exact foldl_lastMatch_eq _ _ fieldnames none fun x hx => hnoex x hx
    obtain ⟨h0, hh0, hc0⟩ := hsub
    obtain ⟨v0, hv0mem, hv0key, hv0fold⟩ := foldl_lastMatch
      (fun h => pyStrip (lowerStr h)) (pyStrip (lowerStr h0)) fieldnames none
      ⟨h0, hh0, rfl⟩
    have hmem : (pyStrip (lowerStr h0), v0) ∈ headersMap fieldnames := by
      apply mem_of_dictGet?
      rw [dictGet?_headersMap_eq, hv0fold]
    have hfindSome : (List.find?
        (fun kv => containsSeq (lowerStr cfgField) kv.1)
        (headersMap fieldnames)).isSome = true :=
      List.find?_isSome.mpr ⟨(pyStrip (lowerStr h0), v0), hmem, hc0⟩
    obtain ⟨kv, hkv⟩ := Option.isSome_iff_exists.mp hfindSome
    have hkvmem := List.mem_of_find?_eq_some hkv
    have hkvpred := List.find?_some hkv
    rcases mem_headersMap fieldnames [] kv hkvmem with habs | ⟨hm2, hm1⟩
    · simp at habs
    refine ⟨kv.2, hm2, ?_, by rw [← hm1]; exact hkvpred⟩
    unfold findField
    dsimp only
    rw [hfa0, hkv]
    have hfalsy : (kv.2).isEmpty = false := List.isEmpty_eq_false.mpr
      (hne kv.2 hm2 (by rw [← hm1]; exact hkvpred))
    simp [pyFalsy, hfalsy]
  · intro hno rows
    have hfa0 : dictGet? (lowerStr cfgField) (headersMap fieldnames) = none := by
      rw [dictGet?_headersMap_eq]
      exact foldl_lastMatch_eq _ _ fieldnames none fun x hx => (hno x hx).1
    have hfind : List.find? (fun kv => containsSeq (lowerStr cfgField) kv.1)
        (headersMap fieldnames) = none := by
      rw [List.find?_eq_none]
      intro kv hkv
      rcases mem_headersMap fieldnames [] kv hkv with habs | ⟨hm2, hm1⟩
      · simp at habs
      · rw [hm1]
        simp [(hno kv.2 hm2).2]
    have hff : findField cfgField fieldnames = none := by
      unfold findField
      dsimp only
      rw [hfa0, hfind]
      rfl
    unfold fetch_counts_from_sheets
    simp only [Bool.not_true, Bool.false_eq_true, if_false]
    rw [if_neg (by simp : ¬((200 : Nat) ≠ 200)), hff]

theorem claim_C7_witness :
    findField "Municipio".data ["  MUNICIPIO ".data]
      = some "  MUNICIPIO ".data
    ∧ fetch_counts_from_sheets true "Municipio".data
        (FetchOutcome.ok 200 ⟨["otra".data], [[("otra".data, "x".data)]]⟩)
      = [] :=
  ⟨(claim_C7 "Municipio".data ["  MUNICIPIO ".data]).2.2.2,
   (claim_C7 "Municipio".data ["otra".data]).2.2.1 (by decide)
      [[("otra".data, "x".data)]]⟩

/-- C9: every data row contributes exactly one occurrence to the count keyed
by the raw trimmed value of the unit column (blank or missing values bucketed
under the fixed sentinel label), so the snapshot values of a successful parse
sum to the number of data rows. -/
theorem claim_C9 (fa : Str) (rows : List (List (Str × Str))) :
    ((countRows fa rows).map Prod.snd).sum = rows.length
    ∧ (∀ k, (dictGet? k (countRows fa rows)).getD 0
        = (rows.filter (fun row => decide (rowKey fa row = k))).length)
    ∧ (∀ (cfgField : Str) (body : CsvData),
        findField cfgField body.fieldnames = some fa →
        fetch_counts_from_sheets true cfgField (FetchOutcome.ok 200 body)
          = countRows fa body.rows) := by
  refine ⟨?_, ?_, ?_⟩
  · have h := countRows_sum fa rows []
    simp only [List.map_nil, List.sum_nil, Nat.zero_add] at h
    unfold countRows
    exact h
  · intro k
    have h := countRows_get fa k rows []
    simp only [dictGet?, Option.getD_none, Nat.zero_add] at h
    unfold countRows
    exact h
  · intro cfgField body hff
    unfold fetch_counts_from_sheets
    simp only [Bool.not_true, Bool.false_eq_true, if_false]
    rw [if_neg (by simp : ¬((200 : Nat) ≠ 200)), hff]

theorem claim_C9_witness :
    ((countRows "Municipio".data
        [[("Municipio".data, " Pachuca de Soto ".data)],
         [("Municipio".data, "Pachuca de Soto".data)],
         [("Municipio".data, "   ".data)]]).map Prod.snd).sum = 3
    ∧ fetch_counts_from_sheets true "Municipio".data
        (FetchOutcome.ok 200 ⟨["Municipio".data],
          [[("Municipio".data, "x".data)]]⟩)
      = countRows "Municipio".data [[("Municipio".data, "x".data)]] :=
  ⟨(claim_C9 "Municipio".data
      [[("Municipio".data, " Pachuca de Soto ".data)],
       [("Municipio".data, "Pachuca de Soto".data)],
       [("Municipio".data, "   ".data)]]).1,
   (claim_C9 "Municipio".data [[("Municipio".data, "x".data)]]).2.2
      "Municipio".data ⟨["Municipio".data], [[("Municipio".data, "x".data)]]⟩
      (by decide)⟩

end PED
